import Mathlib

/-!
Verification of the encoding, decoding, error-to-current and environment glue of
the bindsnet cerebellar-control repository, against its natural-language
specification.  The Python sources embedded here are
`bindsnet/encoding/encodings.py`, `bindsnet/utils.py` and
`bindsnet/environment/environment_sim.py`.

Tensors of rank 2 are modelled as lists of rows (`Mat`), with rational entries;
the stochastic torch primitives are modelled by passing the random draws
explicitly (`rand` streams of uniform draws, `raw` streams of Poisson draws),
so that every definition is executable on concrete inputs.
-/

set_option maxRecDepth 4000

namespace BindsNet

/-- A rank-2 torch tensor: a list of rows. -/
abbrev Mat := List (List ℚ)

instance {ε α : Type} [DecidableEq ε] [DecidableEq α] :
    DecidableEq (Except ε α) := fun x y =>
  match x, y with
  | .ok a, .ok b =>
    if h : a = b then isTrue (by rw [h])
    else isFalse (by intro hc; cases hc; exact h rfl)
  | .ok _, .error _ => isFalse (by intro hc; cases hc)
  | .error _, .ok _ => isFalse (by intro hc; cases hc)
  | .error e, .error f =>
    if h : e = f then isTrue (by rw [h])
    else isFalse (by intro hc; cases hc; exact h rfl)

/-- Python `int(q)`: truncation toward zero. -/
def pyInt (q : ℚ) : ℤ := if 0 ≤ q then ⌊q⌋ else ⌈q⌉

/-- The number of simulation ticks `int(time / dt)` used by every encoder.
For the sensible configurations (`time ≥ 0`, `dt > 0`) this is `⌊time/dt⌋`. -/
def timeTicks (time dt : ℚ) : ℕ := (pyInt (time / dt)).toNat

/-!  ## Decoder (`Decode_Output`, encodings.py lines 421-449)

The monitor tensor handed to `Decode_Output` has a singleton batch dimension
that `torch.squeeze(datum, 1)` removes; the model therefore takes the
already-squeezed `[ticks, neural_num]` matrix.  `times = torch.sum(datum, 0)`
is the per-neuron spike count, `RATE` divides by the window `time / dt`,
`Output_01` averages over the population, and the result is rescaled by the
configured bounds.  (The `torch.sigmoid` line of the source is commented out.) -/

def Decode_Output (datum : Mat) (neural_num : ℕ) (time dt : ℚ)
    (bound_width bound_low : ℚ) : ℚ :=
  let times : List ℚ :=
    (List.range neural_num).map (fun j => (datum.map (fun row => row.getD j 0)).sum)
  let RATE : List ℚ := times.map (fun c => c / (time / dt))
  let Output01 : ℚ := RATE.sum / neural_num
  bound_width * Output01 + bound_low

/-! ### List helper lemmas -/

theorem listSum_map_add {α : Type} (l : List α) (f g : α → ℚ) :
    (l.map (fun x => f x + g x)).sum = (l.map f).sum + (l.map g).sum := by
  induction l with
  | nil => simp
  | cons a t ih => simp [ih]; ring

theorem listSum_map_div (l : List ℚ) (c : ℚ) :
    (l.map (fun x => x / c)).sum = l.sum / c := by
  induction l with
  | nil => simp
  | cons a t ih => simp [ih, add_div]

theorem listSum_map_zero {α : Type} (l : List α) :
    (l.map (fun _ => (0 : ℚ))).sum = 0 := by
  induction l with
  | nil => simp
  | cons a t ih => simp [ih]

/-- Reading a list back off with `getD` over `range` of its length recovers it. -/
theorem map_range_getD (l : List ℚ) :
    (List.range l.length).map (fun j => l.getD j 0) = l := by
  induction l with
  | nil => simp
  | cons a t ih =>
    rw [List.length_cons, List.range_succ_eq_map, List.map_cons, List.map_map]
    have h2 : (List.range t.length).map ((fun j => (a :: t).getD j 0) ∘ Nat.succ)
        = (List.range t.length).map (fun j => t.getD j 0) := by
      apply List.map_congr_left
      intro j _
      simp [Function.comp]
    rw [h2, ih]
    simp

/-- Column sums over a rectangular matrix add up to the grand total. -/
theorem colsum_eq_total (datum : Mat) (n : ℕ)
    (hrow : ∀ row ∈ datum, row.length = n) :
    ((List.range n).map (fun j => (datum.map (fun row => row.getD j 0)).sum)).sum
      = (datum.map List.sum).sum := by
  induction datum with
  | nil => simpa using listSum_map_zero (List.range n)
  | cons r rows ih =>
    have hr : r.length = n := hrow r (by simp)
    have hrest : ∀ row ∈ rows, row.length = n := fun row hm => hrow row (by simp [hm])
    have hsplit :
        ((List.range n).map
            (fun j => ((r :: rows).map (fun row => row.getD j 0)).sum)).sum
          = ((List.range n).map (fun j => r.getD j 0)).sum
            + ((List.range n).map (fun j => (rows.map (fun row => row.getD j 0)).sum)).sum := by
      simpa using listSum_map_add (List.range n) (fun j => r.getD j 0)
        (fun j => (rows.map (fun row => row.getD j 0)).sum)
    have hgot : ((List.range n).map (fun j => r.getD j 0)).sum = r.sum := by
      rw [← hr]
      exact congrArg List.sum (map_range_getD r)
    rw [hsplit, ih hrest, hgot, List.map_cons, List.sum_cons]

/-- The sum of a binary row is between `0` and its length. -/
theorem binary_row_sum_bounds (row : List ℚ)
    (hb : ∀ x ∈ row, x = 0 ∨ x = 1) :
    0 ≤ row.sum ∧ row.sum ≤ (row.length : ℚ) := by
  induction row with
  | nil => simp
  | cons a t ih =>
    have ha : a = 0 ∨ a = 1 := hb a (by simp)
    have ht : ∀ x ∈ t, x = 0 ∨ x = 1 := fun x hm => hb x (by simp [hm])
    obtain ⟨h1, h2⟩ := ih ht
    rcases ha with h | h <;> constructor <;> simp [h] <;> push_cast <;> linarith

/-- The grand total of a binary `[ticks, n]` matrix is between `0` and `ticks * n`. -/
theorem binary_total_bounds (datum : Mat) (n : ℕ)
    (hrow : ∀ row ∈ datum, row.length = n)
    (hbin : ∀ row ∈ datum, ∀ x ∈ row, x = 0 ∨ x = 1) :
    0 ≤ (datum.map List.sum).sum ∧
      (datum.map List.sum).sum ≤ (datum.length : ℚ) * n := by
  induction datum with
  | nil => simp
  | cons r rows ih =>
    have hr : r.length = n := hrow r (by simp)
    obtain ⟨h1, h2⟩ := binary_row_sum_bounds r (hbin r (by simp))
    obtain ⟨h3, h4⟩ := ih (fun row hm => hrow row (by simp [hm]))
      (fun row hm => hbin row (by simp [hm]))
    constructor
    · simpa using add_nonneg h1 h3
    · rw [hr] at h2
      simp only [List.map_cons, List.sum_cons, List.length_cons]
      push_cast
      linarith

/-- C1: on a recorded binary spike train of shape `[ticks, neural_num]` whose
window matches the configured `time / dt`, `Decode_Output` returns
`bound_low + bound_width * total_spikes / ((time/dt) * neural_num)`, and for
binary data with nonnegative `bound_width` the result lies in
`[bound_low, bound_low + bound_width]`. -/
theorem Decode_Output_affine_spike_rate (datum : Mat) (n : ℕ) (time dt bw bl : ℚ)
    (hn : 0 < n) (hwin : 0 < time / dt)
    (hrow : ∀ row ∈ datum, row.length = n)
    (hbin : ∀ row ∈ datum, ∀ x ∈ row, x = 0 ∨ x = 1)
    (hlen : (datum.length : ℚ) ≤ time / dt)
    (hbw : 0 ≤ bw) :
    Decode_Output datum n time dt bw bl
        = bl + bw * ((datum.map List.sum).sum / ((time / dt) * n))
      ∧ bl ≤ Decode_Output datum n time dt bw bl
      ∧ Decode_Output datum n time dt bw bl ≤ bl + bw := by
  have hformula : Decode_Output datum n time dt bw bl
      = bl + bw * ((datum.map List.sum).sum / ((time / dt) * n)) := by
    show bw * ((((List.range n).map
        (fun j => (datum.map (fun row => row.getD j 0)).sum)).map
          (fun c => c / (time / dt))).sum / (n : ℚ)) + bl
      = bl + bw * ((datum.map List.sum).sum / ((time / dt) * n))
    rw [listSum_map_div, colsum_eq_total datum n hrow, div_div]
    ring
  refine ⟨hformula, ?_, ?_⟩
  · rw [hformula]
    obtain ⟨h0, _⟩ := binary_total_bounds datum n hrow hbin
    have hD : 0 < (time / dt) * n := by
      have : (0 : ℚ) < n := by exact_mod_cast hn
      positivity
    have : 0 ≤ bw * ((datum.map List.sum).sum / ((time / dt) * n)) := by
      apply mul_nonneg hbw (div_nonneg h0 (le_of_lt hD))
    linarith
  · rw [hformula]
    obtain ⟨h0, h1⟩ := binary_total_bounds datum n hrow hbin
    have hn' : (0 : ℚ) < n := by exact_mod_cast hn
    have hD : 0 < (time / dt) * n := by positivity
    have hSle : (datum.map List.sum).sum ≤ (time / dt) * n := by
      calc (datum.map List.sum).sum ≤ (datum.length : ℚ) * n := h1
        _ ≤ (time / dt) * n := by
            apply mul_le_mul_of_nonneg_right hlen (le_of_lt hn')
    have hfrac : (datum.map List.sum).sum / ((time / dt) * n) ≤ 1 :=
      (div_le_one hD).mpr hSle
    have : bw * ((datum.map List.sum).sum / ((time / dt) * n)) ≤ bw * 1 :=
      mul_le_mul_of_nonneg_left hfrac hbw
    linarith

/-- Witness for C1 at a concrete binary recording. -/
theorem Decode_Output_affine_spike_rate_witness :
    (0 < 2 ∧ (0 : ℚ) < 2 / 1 ∧ ((2 : ℕ) : ℚ) ≤ 2 / 1 ∧ (0 : ℚ) ≤ 8)
      ∧ (Decode_Output [[1, 0], [0, 1]] 2 2 1 8 0
            = 0 + 8 * (([[1, 0], [0, 1]] : Mat).map List.sum).sum / ((2 / 1) * 2)
          ∧ (0 : ℚ) ≤ Decode_Output [[1, 0], [0, 1]] 2 2 1 8 0
          ∧ Decode_Output [[1, 0], [0, 1]] 2 2 1 8 0 ≤ 0 + 8) := by
  have h := Decode_Output_affine_spike_rate [[1, 0], [0, 1]] 2 2 1 8 0
    (by decide) (by norm_num) (by decide) (by decide) (by norm_num) (by norm_num)
  refine ⟨⟨by decide, by norm_num, by norm_num, by norm_num⟩, ?_, h.2.1, h.2.2⟩
  rw [h.1]; ring

/-!  ## Error-to-current transform (`Error2IO_Current`, utils.py lines 221-272)

For a positive error the agonist channel gets
`base + (max - base) / (1 + exp(-10 x + 5))` and the antagonist stays at
`base`; for a nonpositive error the roles are swapped with curve argument
`10 x + 5`.  Both are then divided by `max_current`.  The error is a scalar,
modelled in `ℝ` because the curve uses `math.exp`. -/

noncomputable def Error2IO_Current (datum max_current base_current : ℝ) : ℝ × ℝ :=
  if 0 < datum then
    ((base_current + (max_current - base_current) / (1 + Real.exp (-10 * datum + 5)))
        / max_current,
      base_current / max_current)
  else
    (base_current / max_current,
      (base_current + (max_current - base_current) / (1 + Real.exp (10 * datum + 5)))
        / max_current)

/-- The saturating increment sits strictly between `0` and `max - base`. -/
theorem curve_increment_bounds (bc mc t : ℝ) (hbm : bc < mc) :
    0 < (mc - bc) / (1 + Real.exp t) ∧ (mc - bc) / (1 + Real.exp t) < mc - bc := by
  have hexp : 0 < Real.exp t := Real.exp_pos t
  have hden : (1 : ℝ) < 1 + Real.exp t := by linarith
  constructor
  · exact div_pos (by linarith) (by linarith)
  · have := div_lt_div_of_pos_left (by linarith : (0:ℝ) < mc - bc)
      (by linarith : (0:ℝ) < 1) hden
    simpa using this

/-- The normalized active channel lies strictly between `base/max` and `1`. -/
theorem active_channel_bounds (bc mc t : ℝ) (hb : 0 ≤ bc) (hbm : bc < mc) :
    bc / mc < (bc + (mc - bc) / (1 + Real.exp t)) / mc
      ∧ (bc + (mc - bc) / (1 + Real.exp t)) / mc < 1 := by
  have hmc : 0 < mc := lt_of_le_of_lt hb hbm
  obtain ⟨hlo, hhi⟩ := curve_increment_bounds bc mc t hbm
  constructor
  · exact div_lt_div_of_pos_right (by linarith) hmc
  · have : bc + (mc - bc) / (1 + Real.exp t) < mc := by linarith
    calc (bc + (mc - bc) / (1 + Real.exp t)) / mc < mc / mc :=
          div_lt_div_of_pos_right this hmc
      _ = 1 := div_self (ne_of_gt hmc)

/-- C2: for every signed scalar error and configured `0 ≤ base < max`, both
channels of `Error2IO_Current` are non-negative and normalized into `[0, 1]`,
and exactly one channel is strictly above the base level `base/max`: the
agonist channel when the error is positive, the antagonist channel
otherwise. -/
theorem Error2IO_Current_sign_selects_channel (x mc bc : ℝ)
    (hb : 0 ≤ bc) (hbm : bc < mc) :
    (0 ≤ (Error2IO_Current x mc bc).1 ∧ (Error2IO_Current x mc bc).1 ≤ 1)
      ∧ (0 ≤ (Error2IO_Current x mc bc).2 ∧ (Error2IO_Current x mc bc).2 ≤ 1)
      ∧ (0 < x → bc / mc < (Error2IO_Current x mc bc).1
            ∧ (Error2IO_Current x mc bc).2 = bc / mc)
      ∧ (¬ 0 < x → (Error2IO_Current x mc bc).1 = bc / mc
            ∧ bc / mc < (Error2IO_Current x mc bc).2) := by
  have hmc : 0 < mc := lt_of_le_of_lt hb hbm
  have hbase0 : 0 ≤ bc / mc := div_nonneg hb (le_of_lt hmc)
  have hbase1 : bc / mc < 1 := (div_lt_one hmc).mpr hbm
  by_cases hx : 0 < x
  · obtain ⟨h1, h2⟩ := active_channel_bounds bc mc (-10 * x + 5) hb hbm
    have hE : Error2IO_Current x mc bc
        = ((bc + (mc - bc) / (1 + Real.exp (-10 * x + 5))) / mc, bc / mc) := by
      unfold Error2IO_Current
      rw [if_pos hx]
    rw [hE]
    exact ⟨⟨le_trans hbase0 (le_of_lt h1), le_of_lt h2⟩,
      ⟨hbase0, le_of_lt hbase1⟩,
      fun _ => ⟨h1, rfl⟩, fun h => absurd hx h⟩
  · obtain ⟨h1, h2⟩ := active_channel_bounds bc mc (10 * x + 5) hb hbm
    have hE : Error2IO_Current x mc bc
        = (bc / mc, (bc + (mc - bc) / (1 + Real.exp (10 * x + 5))) / mc) := by
      unfold Error2IO_Current
      rw [if_neg hx]
    rw [hE]
    exact ⟨⟨hbase0, le_of_lt hbase1⟩,
      ⟨le_trans hbase0 (le_of_lt h1), le_of_lt h2⟩,
      fun h => absurd h hx, fun _ => ⟨rfl, h1⟩⟩

/-- Witness for C2 at error `1` with the configured defaults
`max_current = 0.8`, `base_current = 0.15`. -/
theorem Error2IO_Current_sign_selects_channel_witness :
    ((0 : ℝ) ≤ 0.15 ∧ (0.15 : ℝ) < 0.8)
      ∧ ((0 ≤ (Error2IO_Current 1 0.8 0.15).1 ∧ (Error2IO_Current 1 0.8 0.15).1 ≤ 1)
        ∧ (0 ≤ (Error2IO_Current 1 0.8 0.15).2 ∧ (Error2IO_Current 1 0.8 0.15).2 ≤ 1)
        ∧ (0 < (1:ℝ) → (0.15 : ℝ) / 0.8 < (Error2IO_Current 1 0.8 0.15).1
              ∧ (Error2IO_Current 1 0.8 0.15).2 = 0.15 / 0.8)
        ∧ (¬ 0 < (1:ℝ) → (Error2IO_Current 1 0.8 0.15).1 = 0.15 / 0.8
              ∧ (0.15 : ℝ) / 0.8 < (Error2IO_Current 1 0.8 0.15).2)) :=
  ⟨⟨by norm_num, by norm_num⟩,
    Error2IO_Current_sign_selects_channel 1 0.8 0.15 (by norm_num) (by norm_num)⟩

/-- C9: with configured `0 < base < max`, both normalized currents lie in
`[base/max, 1]`, neither is ever zero, the inactive channel returns exactly
`base/max`, and at zero error it is the antagonist channel that is strictly
above base. -/
theorem Error2IO_Current_base_floor (x mc bc : ℝ)
    (hb : 0 < bc) (hbm : bc < mc) :
    (bc / mc ≤ (Error2IO_Current x mc bc).1 ∧ (Error2IO_Current x mc bc).1 ≤ 1)
      ∧ (bc / mc ≤ (Error2IO_Current x mc bc).2 ∧ (Error2IO_Current x mc bc).2 ≤ 1)
      ∧ (Error2IO_Current x mc bc).1 ≠ 0
      ∧ (Error2IO_Current x mc bc).2 ≠ 0
      ∧ (0 < x → (Error2IO_Current x mc bc).2 = bc / mc)
      ∧ (¬ 0 < x → (Error2IO_Current x mc bc).1 = bc / mc)
      ∧ (x = 0 → (Error2IO_Current x mc bc).1 = bc / mc
            ∧ bc / mc < (Error2IO_Current x mc bc).2) := by
  have hmc : 0 < mc := lt_trans hb hbm
  have hbasepos : 0 < bc / mc := div_pos hb hmc
  obtain ⟨⟨hf0, hf1⟩, ⟨hs0, hs1⟩, hpos, hneg⟩ :=
    Error2IO_Current_sign_selects_channel x mc bc (le_of_lt hb) hbm
  by_cases hx : 0 < x
  · obtain ⟨ha, he⟩ := hpos hx
    exact ⟨⟨le_of_lt ha, hf1⟩, ⟨le_of_eq he.symm, hs1⟩,
      ne_of_gt (lt_trans hbasepos ha), by rw [he]; exact ne_of_gt hbasepos,
      fun _ => he, fun h => absurd hx h,
      fun h0 => absurd hx (by rw [h0]; exact lt_irrefl 0)⟩
  · obtain ⟨he, ha⟩ := hneg hx
    exact ⟨⟨le_of_eq he.symm, hf1⟩, ⟨le_of_lt ha, hs1⟩,
      by rw [he]; exact ne_of_gt hbasepos, ne_of_gt (lt_trans hbasepos ha),
      fun h => absurd h hx, fun _ => he, fun _ => ⟨he, ha⟩⟩

/-- Witness for C9 at zero error with the configured defaults. -/
theorem Error2IO_Current_base_floor_witness :
    ((0 : ℝ) < 0.15 ∧ (0.15 : ℝ) < 0.8)
      ∧ (((0.15 : ℝ) / 0.8 ≤ (Error2IO_Current 0 0.8 0.15).1
            ∧ (Error2IO_Current 0 0.8 0.15).1 ≤ 1)
        ∧ ((0.15 : ℝ) / 0.8 ≤ (Error2IO_Current 0 0.8 0.15).2
            ∧ (Error2IO_Current 0 0.8 0.15).2 ≤ 1)
        ∧ (Error2IO_Current 0 0.8 0.15).1 ≠ 0
        ∧ (Error2IO_Current 0 0.8 0.15).2 ≠ 0
        ∧ (0 < (0:ℝ) → (Error2IO_Current 0 0.8 0.15).2 = 0.15 / 0.8)
        ∧ (¬ 0 < (0:ℝ) → (Error2IO_Current 0 0.8 0.15).1 = 0.15 / 0.8)
        ∧ ((0:ℝ) = 0 → (Error2IO_Current 0 0.8 0.15).1 = 0.15 / 0.8
              ∧ (0.15 : ℝ) / 0.8 < (Error2IO_Current 0 0.8 0.15).2)) :=
  ⟨⟨by norm_num, by norm_num⟩,
    Error2IO_Current_base_floor 0 0.8 0.15 (by norm_num) (by norm_num)⟩

/-!  ## External actuator wrapper (`MuscleEnvironment`, environment_sim.py)

The workspace stores (`Info_muscle` and the matlab engine workspace) are
modelled as association lists from Python keys to values.  Keys can be
strings or other objects (here: integers), because nothing in the code
restricts them. -/

inductive PyKey where
  | str (s : String)
  | int (n : Int)
deriving DecidableEq

def pyIsStr : PyKey → Bool
  | .str _ => true
  | .int _ => false

def storeGet (s : List (PyKey × Int)) (k : PyKey) : Option Int :=
  match s.find? (fun e => e.1 = k) with
  | some e => some e.2
  | none => none

def storeSet (s : List (PyKey × Int)) (k : PyKey) (v : Int) : List (PyKey × Int) :=
  if (s.find? (fun e => e.1 = k)).isSome then
    s.map (fun e => if e.1 = k then (k, v) else e)
  else s ++ [(k, v)]

structure MuscleStore where
  Info_muscle : List (PyKey × Int)
  workspace : List (PyKey × Int)
deriving DecidableEq

/-- A Python tuple is truthy iff it is nonempty. -/
def pyTupleTruthy (arity : ℕ) : Bool := arity != 0

/-- `assert(cond, msg)` in Python parses as `assert (cond, msg)`: the asserted
expression is the 2-tuple itself, whose truthiness is tested.  A 2-tuple is
nonempty, hence always truthy, so the assert never raises — regardless of
`cond`. -/
def pyAssertTuple2 (cond : Bool) (msg : String) : Except String Unit :=
  if pyTupleTruthy 2 then .ok () else .error ("AssertionError: " ++ msg)

/-- `MuscleEnvironment.Rec_eng_Info` (lines 316-329): for each requested name,
`assert(isinstance(l, str), "Invaild record key! ...")` (the defanged tuple
assert), then `self.Info_muscle[l] = self.eng.workspace[l]`.  Reading an
undefined matlab workspace variable raises inside the engine. -/
def Rec_eng_Info (st : MuscleStore) (para_list : List PyKey) :
    Except String MuscleStore :=
  if para_list.length = 0 then .ok st
  else
    para_list.foldlM (fun acc l =>
      match pyAssertTuple2 (pyIsStr l) "Invaild record key! Key must be string type" with
      | .error e => .error e
      | .ok _ =>
        match storeGet acc.workspace l with
        | some v => .ok { acc with Info_muscle := storeSet acc.Info_muscle l v }
        | none => .error "MatlabEngineError: undefined workspace variable") st

/-- `MuscleEnvironment.Send_control` (lines 331-345): for each command name,
two defanged tuple asserts (string-ness and presence in `Info_muscle`), then
`self.eng.workspace[c] = self.Info_muscle[c]` twice; indexing a dict with a
missing key raises `KeyError`. -/
def Send_control (st : MuscleStore) (command_list : List PyKey) :
    Except String MuscleStore :=
  if command_list.length = 0 then .ok st
  else
    command_list.foldlM (fun acc c =>
      match pyAssertTuple2 (pyIsStr c) "Invaild command key! Key must be string type" with
      | .error e => .error e
      | .ok _ =>
        match pyAssertTuple2 (storeGet acc.Info_muscle c).isSome
            "No such key in Info_muscle" with
        | .error e => .error e
        | .ok _ =>
          match storeGet acc.Info_muscle c with
          | some v =>
            .ok { acc with workspace := storeSet (storeSet acc.workspace c v) c v }
          | none => .error "KeyError") st

/-- C3 (refuted by the code): both workspace accessors accept a non-string
key and perform the store access instead of failing fast — the guards are
`assert (cond, msg)` tuple asserts that can never fire.  Here the integer key
`5` is recorded and the integer key `7` is sent without any error. -/
theorem workspace_key_guards_never_fire :
    Rec_eng_Info ⟨[], [(PyKey.int 5, 42)]⟩ [PyKey.int 5]
        = .ok ⟨[(PyKey.int 5, 42)], [(PyKey.int 5, 42)]⟩
      ∧ Send_control ⟨[(PyKey.int 7, 3)], []⟩ [PyKey.int 7]
        = .ok ⟨[(PyKey.int 7, 3)], [(PyKey.int 7, 3)]⟩ := by
  constructor <;> rfl

/-!  ### `MuscleEnvironment.__init__` (lines 267-284)

Python resolves the bare name `n_mat_step` on line 281
(`self.n_mat_step = n_mat_step;`) against the function locals and the module
globals.  The locals of `__init__` are `self`, `encoding_time`,
`MATLABSTEPTIME` and `kwargs`; the module globals of `environment_sim.py` are
its imports and its five classes.  `n_mat_step` is in neither scope. -/

def envSimGlobalNames : List String :=
  ["ABC", "abstractmethod", "Tuple", "Dict", "Any", "Optional", "Callable",
   "gym", "np", "torch", "subsample", "gray_scale", "binary_image", "crop",
   "Encoder", "NullEncoder", "matlab",
   "Environment", "GymEnvironment", "MuscleEnvironment", "NetworkEnvironment",
   "WholeEnvironment"]

def muscleInitLocalNames : List String :=
  ["self", "encoding_time", "MATLABSTEPTIME", "kwargs"]

/-- Evaluating a bare name: defined names evaluate, undefined names raise
`NameError`. -/
def pyLoadName (localNames globalNames : List String) (n : String) :
    Except String Unit :=
  if n ∈ localNames ∨ n ∈ globalNames then .ok ()
  else .error ("NameError: name " ++ n ++ " is not defined")

/-- `MuscleEnvironment.__init__`: computes `encoding_time / MATLABSTEPTIME`
into the attribute, starts and connects the matlab engine (which can itself
fail, modelled by `engineOk`), passes the well-formed
`assert (self.eng is not None), "..."`, and then evaluates the unbound name
`n_mat_step`.  The returned value would be the final `n_mat_step` attribute. -/
def MuscleEnvironment_init (encoding_time MATLABSTEPTIME : ℚ)
    (engineOk : Bool) : Except String ℚ :=
  let nStepAttr := encoding_time / MATLABSTEPTIME
  if !engineOk then .error "EngineError: failed to start or connect matlab"
  else
    match pyLoadName muscleInitLocalNames envSimGlobalNames "n_mat_step" with
    | .error e => .error e
    | .ok _ => .ok nStepAttr

/-- C10: constructing a `MuscleEnvironment` raises for every argument value;
when the matlab engine is reachable the error is precisely the `NameError`
for the unbound `n_mat_step`. -/
theorem MuscleEnvironment_init_always_raises
    (encoding_time MATLABSTEPTIME : ℚ) (engineOk : Bool) :
    (∃ msg, MuscleEnvironment_init encoding_time MATLABSTEPTIME engineOk
        = .error msg)
      ∧ MuscleEnvironment_init encoding_time MATLABSTEPTIME true
        = .error "NameError: name n_mat_step is not defined" := by
  constructor
  · cases engineOk with
    | false => exact ⟨"EngineError: failed to start or connect matlab", rfl⟩
    | true => exact ⟨"NameError: name n_mat_step is not defined", rfl⟩
  · rfl

/-!  ## Torch primitives used by the encoders

`torch.bernoulli(p)` raises unless every probability lies in `[0, 1]`, and
returns independent `0/1` samples; a sample is `1` exactly when the next
uniform draw from `rand` falls below `p`.  `Tensor.resize(r, c)` (the
deprecated non-underscore form used by `bernoulli_RBF`) reshapes the storage
to `r * c` entries, keeping the existing data and exposing uninitialized
storage (`junk`) past its end.  `torch.distributions.Poisson(rate).sample()`
draws a natural number, which is almost surely `0` when the rate is `0`; a
non-finite rate (such as the `0/0` of an all-zero input) is invalid. -/

def torchBernoulliProb (p r : ℚ) : ℚ := if r < p then 1 else 0

def probOk (p : ℚ) : Bool := decide (0 ≤ p) && decide (p ≤ 1)

def torchBernoulliVec (ps : List ℚ) (rand : ℕ → ℚ) : Except String (List ℚ) :=
  if ps.all probOk then
    .ok ((List.range ps.length).map (fun k => torchBernoulliProb (ps.getD k 0) (rand k)))
  else .error "RuntimeError: bernoulli expects all elements to be in 0..1"

def torchBernoulliMat (ps : Mat) (rand : ℕ → ℚ) : Except String Mat :=
  if ps.all (fun row => row.all probOk) then
    .ok ((List.range ps.length).map (fun t =>
      (List.range (ps.getD t []).length).map (fun i =>
        torchBernoulliProb ((ps.getD t []).getD i 0) (rand (t * (ps.getD t []).length + i)))))
  else .error "RuntimeError: bernoulli expects all elements to be in 0..1"

/-- `torch.max` over a (nonempty) 1-D tensor. -/
def tensorMax (l : List ℚ) : ℚ := l.foldl max (l.headD 0)

/-- `Tensor.resize(rows, cols)`: entry `(r, c)` is element `r * cols + c` of
the flat storage when that is within the old data, and uninitialized memory
otherwise. -/
def pyResize (flat : List ℚ) (rows cols : ℕ) (junk : ℕ → ℚ) : Mat :=
  (List.range rows).map (fun r =>
    (List.range cols).map (fun c =>
      if r * cols + c < flat.length then flat.getD (r * cols + c) 0
      else junk (r * cols + c)))

/-- A Poisson draw: `raw` is the underlying sample, forced to `0` when the
rate parameter is `0` (a rate-0 Poisson variable is almost surely `0`). -/
def poissonSample (rate : ℚ) (raw : ℕ) : ℕ := if rate = 0 then 0 else raw

/-- Float division: `x / 0` is not a finite number (`0/0` is NaN). -/
def floatDiv (a b : ℚ) : Option ℚ := if b = 0 then none else some (a / b)

/-!  ## `bernoulli` (encodings.py lines 53-97)

Asserts `0 ≤ max_prob ≤ 1` and `datum ≥ 0`, normalizes by the maximum when it
exceeds `1`, and Bernoulli-samples either a single tensor shaped like the
input (`time is None`) or `int(time/dt)` repeated rows. -/

inductive TorchT where
  | vec (v : List ℚ)
  | mat (m : Mat)
deriving DecidableEq

def bernoulli (datum : List ℚ) (time : Option ℚ) (dt : ℚ) (max_prob : ℚ)
    (rand : ℕ → ℚ) : Except String TorchT :=
  if ¬ (0 ≤ max_prob ∧ max_prob ≤ 1) then
    .error "AssertionError: Maximum firing probability must be in range 0..1"
  else if ¬ (∀ x ∈ datum, 0 ≤ x) then
    .error "AssertionError: Inputs must be non-negative"
  else
    let dmax := tensorMax datum
    let datum2 := if 1 < dmax then datum.map (fun x => x / dmax) else datum
    match time with
    | none => Except.map TorchT.vec (torchBernoulliVec (datum2.map (fun x => max_prob * x)) rand)
    | some t =>
      Except.map TorchT.mat (torchBernoulliMat
        (List.replicate (timeTicks t dt) (datum2.map (fun x => max_prob * x))) rand)

/-!  ## `bernoulli_RBF` (encodings.py lines 195-242)

Builds the rate list tick by tick — for each tick, for each of the
`num_group` groups, `int(neural_num / num_group)` copies of that group's
rate — then `resize`s it to `(int(time/dt), neural_num)` and Bernoulli
samples.  There is no non-negativity assert of its own; rejection of bad
rates happens inside `torch.bernoulli`. -/

def bernoulliRBFRate (datum : List ℚ) (num_group neural_num T : ℕ) : List ℚ :=
  (List.range T).flatMap (fun _ =>
    (List.range num_group).flatMap (fun i =>
      (List.range (neural_num / num_group)).map (fun _ => datum.getD i 0)))

def bernoulli_RBF (datum : List ℚ) (neural_num num_group : ℕ) (time dt : ℚ)
    (junk : ℕ → ℚ) (rand : ℕ → ℚ) : Except String Mat :=
  let T := timeTicks time dt
  torchBernoulliMat (pyResize (bernoulliRBFRate datum num_group neural_num T)
    T neural_num junk) rand

/-!  ## `IO_Current2spikes` (encodings.py lines 358-418)

Asserts on `max_prob` and on non-negativity of the current, then builds one
spike vector per tick — neuron `i` spikes when `max_prob * Current > rand` —
prepending each tick with `torch.cat`, and finally `resize`s the flat data to
`(int(time/dt), neural_num)`.  The flat data has exactly
`int(time/dt) * neural_num` entries, so the resize is exact. -/

def IO_spikeVec (Current : ℚ) (neural_num : ℕ) (max_prob : ℚ) (rand : ℕ → ℚ)
    (t : ℕ) : List ℚ :=
  (List.range neural_num).map (fun i =>
    if rand (t * neural_num + i) < max_prob * Current then 1 else 0)

def IO_flat (Current : ℚ) (neural_num T : ℕ) (max_prob : ℚ) (rand : ℕ → ℚ) :
    List ℚ :=
  (List.range T).foldl (fun acc t => IO_spikeVec Current neural_num max_prob rand t ++ acc) []

def IO_Current2spikes (Current : ℚ) (neural_num : ℕ) (time dt : ℚ)
    (max_prob : ℚ) (junk : ℕ → ℚ) (rand : ℕ → ℚ) : Except String Mat :=
  if ¬ (0 ≤ max_prob ∧ max_prob ≤ 1) then
    .error "AssertionError: Maximum firing probability must be in range 0..1"
  else if ¬ (0 ≤ Current) then
    .error "AssertionError: Inputs must be non-negative"
  else
    let T := timeTicks time dt
    .ok (pyResize (IO_flat Current neural_num T max_prob rand) T neural_num junk)

/-!  ## `poisson` (encodings.py lines 100-157, exact branch)

Asserts non-negativity; rates are `1/datum * (1000/dt)` where the input is
nonzero and `0` elsewhere; samples `int(time/dt) + 1` inter-spike intervals
per neuron, increments zero intervals where the input is nonzero, cumulates
them into spike times, zeroes times past the window, scatters ones at
`spikes[times, neuron]` and drops the first row. -/

def poissonRate (datum : List ℚ) (dt : ℚ) (i : ℕ) : ℚ :=
  if datum.getD i 0 ≠ 0 then 1 / datum.getD i 0 * (1000 / dt) else 0

def poissonInterval (datum : List ℚ) (dt : ℚ) (raw : ℕ → ℕ → ℕ) (t i : ℕ) : ℕ :=
  let v := poissonSample (poissonRate datum dt i) (raw t i)
  if datum.getD i 0 ≠ 0 ∧ v = 0 then v + 1 else v

def poissonTimes (datum : List ℚ) (dt : ℚ) (raw : ℕ → ℕ → ℕ) (t i : ℕ) : ℕ :=
  ((List.range (t + 1)).map (fun s => poissonInterval datum dt raw s i)).sum

def poissonClampedTimes (datum : List ℚ) (dt : ℚ) (raw : ℕ → ℕ → ℕ) (T t i : ℕ) : ℕ :=
  if T + 1 ≤ poissonTimes datum dt raw t i then 0 else poissonTimes datum dt raw t i

def poissonSpikeAt (datum : List ℚ) (dt : ℚ) (raw : ℕ → ℕ → ℕ) (T r i : ℕ) : ℚ :=
  if (List.range (T + 1)).any (fun t => poissonClampedTimes datum dt raw T t i == r)
  then 1 else 0

def poisson (datum : List ℚ) (time dt : ℚ) (raw : ℕ → ℕ → ℕ) : Except String Mat :=
  if ¬ (∀ x ∈ datum, 0 ≤ x) then .error "AssertionError: Inputs must be non-negative"
  else
    let T := timeTicks time dt
    .ok (((List.range (T + 1)).map (fun r =>
      (List.range datum.length).map (fun i => poissonSpikeAt datum dt raw T r i))).drop 1)

/-!  ## `poisson_IO` (encodings.py lines 292-355, exact branch)

Modelled as `poisson_IO_fn`.  Differences from `poisson`: the rate vector is
`datum / torch.max(datum)` — division that is NaN on an all-zero input — the
sample shape is `[ner, size]` with the hard-coded `ner = 8`, the transpose
makes the cumulative sum run over the input index, and the scatter writes one
spike per `(input index, output neuron)` pair into a `(int(time/dt)+1, 8)`
tensor whose first row is dropped. -/

def poissonIORate (datum : List ℚ) (s : ℕ) : ℚ :=
  ((datum.map (fun x => floatDiv x (tensorMax datum))).getD s none).getD 0

def poissonIOInterval (datum : List ℚ) (raw : ℕ → ℕ → ℕ) (s j : ℕ) : ℕ :=
  let v := poissonSample (poissonIORate datum s) (raw j s)
  if datum.getD s 0 ≠ 0 ∧ v = 0 then v + 1 else v

def poissonIOTimes (datum : List ℚ) (raw : ℕ → ℕ → ℕ) (s j : ℕ) : ℕ :=
  ((List.range (s + 1)).map (fun u => poissonIOInterval datum raw u j)).sum

def poissonIOClampedTimes (datum : List ℚ) (raw : ℕ → ℕ → ℕ) (T s j : ℕ) : ℕ :=
  if T + 1 ≤ poissonIOTimes datum raw s j then 0 else poissonIOTimes datum raw s j

def poissonIOSpikeAt (datum : List ℚ) (raw : ℕ → ℕ → ℕ) (T r j : ℕ) : ℚ :=
  if (List.range datum.length).any (fun s => poissonIOClampedTimes datum raw T s j == r)
  then 1 else 0

def poisson_IO_fn (datum : List ℚ) (time dt : ℚ) (raw : ℕ → ℕ → ℕ) :
    Except String Mat :=
  if ¬ (∀ x ∈ datum, 0 ≤ x) then .error "AssertionError: Inputs must be non-negative"
  else if (datum.map (fun x => floatDiv x (tensorMax datum))).any (fun r => r.isNone) then
    .error "ValueError: Poisson rate is not a finite non-negative number"
  else
    let T := timeTicks time dt
    let ner : ℕ := 8
    .ok (((List.range (T + 1)).map (fun r =>
      (List.range ner).map (fun j => poissonIOSpikeAt datum raw T r j))).drop 1)

/-!  ### Shape and membership helpers -/

theorem getD_map_range {α : Type} (f : ℕ → α) (T t : ℕ) (d : α) (h : t < T) :
    ((List.range T).map f).getD t d = f t := by
  rw [List.getD_eq_get _ _ (by simpa using h)]
  simp

theorem sum_map_const_nat {α : Type} (l : List α) (c : ℕ) :
    (l.map (fun _ => c)).sum = l.length * c := by
  induction l with
  | nil => simp
  | cons a t ih => simp [ih, Nat.succ_mul, Nat.add_comm]

theorem map_range_const {α : Type} (n : ℕ) (c : α) :
    (List.range n).map (fun _ => c) = List.replicate n c := by
  induction n with
  | zero => simp
  | succ m ih =>
    rw [List.range_succ_eq_map, List.map_cons, List.map_map, List.replicate_succ]
    exact congrArg (c :: ·) ih

theorem pyResize_length (flat : List ℚ) (r c : ℕ) (junk : ℕ → ℚ) :
    (pyResize flat r c junk).length = r := by
  simp [pyResize]

theorem pyResize_row_length (flat : List ℚ) (r c : ℕ) (junk : ℕ → ℚ) :
    ∀ row ∈ pyResize flat r c junk, row.length = c := by
  intro row hrow
  obtain ⟨t, _, rfl⟩ := List.mem_map.mp hrow
  simp

theorem torchBernoulliMat_ok_inv {ps : Mat} {rand : ℕ → ℚ} {M : Mat}
    (h : torchBernoulliMat ps rand = .ok M) :
    M = (List.range ps.length).map (fun t =>
      (List.range (ps.getD t []).length).map (fun i =>
        torchBernoulliProb ((ps.getD t []).getD i 0)
          (rand (t * (ps.getD t []).length + i)))) := by
  unfold torchBernoulliMat at h
  split at h
  · exact (Except.ok.injEq _ _).mp h |>.symm
  · exact absurd h (by simp)

theorem bernoulliRBFRate_length (datum : List ℚ) (ng nn T : ℕ) :
    (bernoulliRBFRate datum ng nn T).length = T * (ng * (nn / ng)) := by
  unfold bernoulliRBFRate
  rw [List.length_flatMap]
  have hblock : ∀ t : ℕ,
      ((List.range ng).flatMap (fun i =>
        (List.range (nn / ng)).map (fun _ => datum.getD i 0))).length
        = ng * (nn / ng) := by
    intro t
    rw [List.length_flatMap]
    have : ∀ i : ℕ, ((List.range (nn / ng)).map
        (fun _ => datum.getD i 0)).length = nn / ng := by
      intro i; simp
    calc ((List.range ng).map (fun i => ((List.range (nn / ng)).map
          (fun _ => datum.getD i 0)).length)).sum
        = ((List.range ng).map (fun _ => nn / ng)).sum := by
          apply congrArg List.sum
          exact List.map_congr_left (fun i _ => this i)
      _ = ng * (nn / ng) := by rw [sum_map_const_nat]; simp
  calc ((List.range T).map (fun t => ((List.range ng).flatMap (fun i =>
        (List.range (nn / ng)).map (fun _ => datum.getD i 0))).length)).sum
      = ((List.range T).map (fun _ => ng * (nn / ng))).sum := by
        apply congrArg List.sum
        exact List.map_congr_left (fun t _ => hblock t)
    _ = T * (ng * (nn / ng)) := by rw [sum_map_const_nat]; simp

/-- C4 (refuted by the code): `poisson_IO` returns spike trains that are
always `8` wide — here a population of size `1` yields rows of length `8`. -/
theorem poisson_IO_width_counterexample :
    Except.map (fun (M : Mat) => M.map List.length)
        (poisson_IO_fn [(1 : ℚ)] 4 1 (fun _ _ => 1)) = .ok [8, 8, 8, 8]
      ∧ [(1 : ℚ)].length = 1 ∧ (8 : ℕ) ≠ 1 := by
  refine ⟨by with_unfolding_all decide, rfl, by decide⟩

/-- C4 as amended: `poisson` and `bernoulli_RBF` return `[int(time/dt), size]`
tensors (input size, resp. requested `neural_num`), while `poisson_IO`
returns `[int(time/dt), 8]` regardless of the input size. -/
theorem encoder_output_shapes (datum : List ℚ) (nn ng : ℕ) (time dt : ℚ)
    (raw : ℕ → ℕ → ℕ) (junk rand : ℕ → ℚ) :
    (∀ M, poisson datum time dt raw = .ok M →
        M.length = timeTicks time dt ∧ ∀ row ∈ M, row.length = datum.length)
      ∧ (∀ M, bernoulli_RBF datum nn ng time dt junk rand = .ok M →
        M.length = timeTicks time dt ∧ ∀ row ∈ M, row.length = nn)
      ∧ (∀ M, poisson_IO_fn datum time dt raw = .ok M →
        M.length = timeTicks time dt ∧ ∀ row ∈ M, row.length = 8) := by
  refine ⟨?_, ?_, ?_⟩
  · intro M h
    unfold poisson at h
    split at h
    · exact absurd h (by simp)
    · have hM := (Except.ok.injEq _ _).mp h
      subst hM
      constructor
      · simp
      · intro row hrow
        have := List.mem_of_mem_drop hrow
        obtain ⟨r, _, rfl⟩ := List.mem_map.mp this
        simp
  · intro M h
    have hM := torchBernoulliMat_ok_inv h
    subst hM
    constructor
    · simp [pyResize_length]
    · intro row hrow
      obtain ⟨t, ht, rfl⟩ := List.mem_map.mp hrow
      rw [List.mem_range, pyResize_length] at ht
      have hrowt : (pyResize (bernoulliRBFRate datum ng nn (timeTicks time dt))
          (timeTicks time dt) nn junk).getD t []
          = (List.range nn).map (fun c =>
              if t * nn + c < (bernoulliRBFRate datum ng nn (timeTicks time dt)).length
              then (bernoulliRBFRate datum ng nn (timeTicks time dt)).getD (t * nn + c) 0
              else junk (t * nn + c)) := by
        unfold pyResize
        exact getD_map_range _ _ _ _ ht
      rw [hrowt]
      simp
  · intro M h
    unfold poisson_IO_fn at h
    split at h
    · exact absurd h (by simp)
    · split at h
      · exact absurd h (by simp)
      · have hM := (Except.ok.injEq _ _).mp h
        subst hM
        constructor
        · simp
        · intro row hrow
          have := List.mem_of_mem_drop hrow
          obtain ⟨r, _, rfl⟩ := List.mem_map.mp this
          simp

/-- Witness for the amended C4 shape theorem, extracting the `poisson` shape
at a concrete input. -/
theorem encoder_output_shapes_witness :
    ([[(1 : ℚ)], [1], [1], [1]] : Mat).length = timeTicks 4 1
      ∧ ∀ row ∈ ([[(1 : ℚ)], [1], [1], [1]] : Mat), row.length = [(1 : ℚ)].length :=
  (encoder_output_shapes [(1 : ℚ)] 5 2 4 1 (fun _ _ => 1) (fun _ => 0)
    (fun _ => 0)).1 [[1], [1], [1], [1]] (by with_unfolding_all decide)

/-!  ### Resize and rate-list helpers (C7) -/

/-- Every entry of the `bernoulli_RBF` rate list is some `datum.getD i 0`. -/
theorem bernoulliRBFRate_entries (datum : List ℚ) (ng nn T : ℕ) :
    ∀ x ∈ bernoulliRBFRate datum ng nn T, ∃ i, x = datum.getD i 0 := by
  intro x hx
  unfold bernoulliRBFRate at hx
  obtain ⟨t, _, hx⟩ := List.mem_flatMap.mp hx
  obtain ⟨i, _, hx⟩ := List.mem_flatMap.mp hx
  obtain ⟨_, _, rfl⟩ := List.mem_map.mp hx
  exact ⟨i, rfl⟩

/-- With a nonempty window, nonempty groups, and `num_group ≤ neural_num`,
each group's rate `datum.getD i 0` really occurs in the rate list. -/
theorem bernoulliRBFRate_mem (datum : List ℚ) (ng nn T i : ℕ)
    (hT : 0 < T) (hg : 0 < ng) (hgn : ng ≤ nn) (hi : i < ng) :
    datum.getD i 0 ∈ bernoulliRBFRate datum ng nn T := by
  unfold bernoulliRBFRate
  rw [List.mem_flatMap]
  refine ⟨0, List.mem_range.mpr hT, ?_⟩
  rw [List.mem_flatMap]
  refine ⟨i, List.mem_range.mpr hi, ?_⟩
  rw [List.mem_map]
  exact ⟨0, List.mem_range.mpr ((Nat.one_le_div_iff hg).mpr hgn), rfl⟩

/-- Everything stored in the flat data survives a (non-shrinking) resize. -/
theorem mem_pyResize_of_mem_flat (flat : List ℚ) (r c : ℕ) (junk : ℕ → ℚ)
    (hlen : flat.length ≤ r * c) :
    ∀ x ∈ flat, ∃ row ∈ pyResize flat r c junk, x ∈ row := by
  intro x hx
  obtain ⟨⟨k, hk⟩, rfl⟩ := List.mem_iff_get.mp hx
  have hc : 0 < c := by
    rcases Nat.eq_zero_or_pos c with h0 | h
    · subst h0; rw [Nat.mul_zero] at hlen; omega
    · exact h
  have hkr : k / c < r := (Nat.div_lt_iff_lt_mul hc).mpr (by omega)
  refine ⟨(List.range c).map (fun cc =>
      if (k / c) * c + cc < flat.length then flat.getD ((k / c) * c + cc) 0
      else junk ((k / c) * c + cc)), ?_, ?_⟩
  · unfold pyResize
    exact List.mem_map.mpr ⟨k / c, List.mem_range.mpr hkr, rfl⟩
  · apply List.mem_map.mpr
    refine ⟨k % c, List.mem_range.mpr (Nat.mod_lt _ hc), ?_⟩
    have hk2 : (k / c) * c + k % c = k := by
      rw [Nat.mul_comm]; exact Nat.div_add_mod k c
    rw [hk2, if_pos hk, List.getD_eq_get flat 0 hk]

/-- A negative entry anywhere in the probability matrix makes the
`torch.bernoulli` validity check fail. -/
theorem all_probOk_false_of_neg {ps : Mat} {row : List ℚ} {x : ℚ}
    (hrow : row ∈ ps) (hx : x ∈ row) (hneg : x < 0) :
    ¬ (ps.all (fun row => row.all probOk) = true) := by
  intro hall
  have h1 := (List.all_eq_true.mp hall) row hrow
  have h2 := (List.all_eq_true.mp h1) x hx
  unfold probOk at h2
  rw [Bool.and_eq_true, decide_eq_true_eq, decide_eq_true_eq] at h2
  exact absurd h2.1 (not_le.mpr hneg)

theorem foldl_append_length (v : ℕ → List ℚ) (c : ℕ)
    (hv : ∀ t, (v t).length = c) :
    ∀ (l : List ℕ) (init : List ℚ),
      (l.foldl (fun acc t => v t ++ acc) init).length = l.length * c + init.length := by
  intro l
  induction l with
  | nil => intro init; simp
  | cons a rest ih =>
    intro init
    rw [List.foldl_cons, ih]
    simp [hv a]
    ring

/-- The flat spike data of `IO_Current2spikes` fills the declared
`[int(time/dt), neural_num]` shape exactly. -/
theorem IO_flat_length (Current : ℚ) (nn T : ℕ) (mp : ℚ) (rand : ℕ → ℚ) :
    (IO_flat Current nn T mp rand).length = T * nn := by
  unfold IO_flat
  rw [foldl_append_length (IO_spikeVec Current nn mp rand) nn
    (fun t => by simp [IO_spikeVec])]
  simp

/-- C7 (refuted by the code): a group count that does not divide the neuron
count (`num_group = 2`, `neural_num = 3`) is silently masked — the encoder
returns a full `[1, 3]` spike train instead of failing. -/
theorem bernoulli_RBF_silent_resize_counterexample :
    bernoulli_RBF [1/2, 1/2] 3 2 1 1 (fun _ => 0) (fun _ => 1/2)
        = .ok [[0, 0, 0]]
      ∧ ¬ ((2 : ℕ) ∣ 3) := by
  exact ⟨by with_unfolding_all decide, by decide⟩

/-- C7 as amended: when `num_group` does not divide `neural_num` the rate
data of `bernoulli_RBF` is strictly smaller than the declared shape, yet the
encoder pads it with uninitialized storage and (for in-range data and junk)
returns a full `[int(time/dt), neural_num]` tensor instead of failing;
`IO_Current2spikes`, in contrast, fills its declared shape exactly. -/
theorem resize_masks_shape_mismatch (datum : List ℚ) (nn ng : ℕ) (time dt : ℚ)
    (junk rand : ℕ → ℚ) (Current max_prob : ℚ)
    (hg : 0 < ng) (hgn : ng ≤ nn) (hndvd : ¬ ng ∣ nn)
    (hT : 0 < timeTicks time dt) :
    (bernoulliRBFRate datum ng nn (timeTicks time dt)).length
        < timeTicks time dt * nn
      ∧ ((∀ x ∈ datum, 0 ≤ x ∧ x ≤ 1) → (∀ k, 0 ≤ junk k ∧ junk k ≤ 1) →
          ∃ M, bernoulli_RBF datum nn ng time dt junk rand = .ok M
            ∧ M.length = timeTicks time dt ∧ ∀ row ∈ M, row.length = nn)
      ∧ (IO_flat Current nn (timeTicks time dt) max_prob rand).length
          = timeTicks time dt * nn := by
  have hblock : ng * (nn / ng) < nn := by
    have hle : ng * (nn / ng) ≤ nn := by
      rw [Nat.mul_comm]; exact Nat.div_mul_le_self nn ng
    exact Nat.lt_of_le_of_ne hle (fun he => hndvd ⟨nn / ng, he.symm⟩)
  refine ⟨?_, ?_, IO_flat_length Current nn (timeTicks time dt) max_prob rand⟩
  · rw [bernoulliRBFRate_length]
    exact mul_lt_mul_of_pos_left hblock hT
  · intro hdat hjunk
    have hentry : ∀ i : ℕ, 0 ≤ datum.getD i 0 ∧ datum.getD i 0 ≤ 1 := by
      intro i
      by_cases hi : i < datum.length
      · rw [List.getD_eq_get datum 0 hi]
        exact hdat _ (List.get_mem datum i hi)
      · rw [List.getD_eq_default datum 0 (by omega)]
        exact ⟨le_refl 0, by norm_num⟩
    have hok : (pyResize (bernoulliRBFRate datum ng nn (timeTicks time dt))
        (timeTicks time dt) nn junk).all (fun row => row.all probOk) = true := by
      rw [List.all_eq_true]
      intro row hrow
      rw [List.all_eq_true]
      intro x hx
      obtain ⟨t, _, rfl⟩ := List.mem_map.mp hrow
      obtain ⟨cc, _, rfl⟩ := List.mem_map.mp hx
      unfold probOk
      rw [Bool.and_eq_true, decide_eq_true_eq, decide_eq_true_eq]
      set k := t * nn + cc with hk
      by_cases hin : k < (bernoulliRBFRate datum ng nn (timeTicks time dt)).length
      · rw [if_pos hin, List.getD_eq_get _ 0 hin]
        obtain ⟨i, hi⟩ := bernoulliRBFRate_entries datum ng nn (timeTicks time dt)
          _ (List.get_mem _ k hin)
        rw [hi]
        exact hentry i
      · rw [if_neg hin]
        exact hjunk k
    obtain ⟨M, hM⟩ : ∃ M, bernoulli_RBF datum nn ng time dt junk rand = .ok M := by
      unfold bernoulli_RBF torchBernoulliMat
      rw [if_pos hok]
      exact ⟨_, rfl⟩
    have hM2 : torchBernoulliMat (pyResize
        (bernoulliRBFRate datum ng nn (timeTicks time dt))
        (timeTicks time dt) nn junk) rand = .ok M := hM
    have hMeq := torchBernoulliMat_ok_inv hM2
    refine ⟨M, hM, ?_, ?_⟩
    · rw [hMeq, List.length_map, List.length_range, pyResize_length]
    · intro row hrow
      rw [hMeq] at hrow
      obtain ⟨t, ht, rfl⟩ := List.mem_map.mp hrow
      rw [List.mem_range, pyResize_length] at ht
      have hrowt : (pyResize (bernoulliRBFRate datum ng nn (timeTicks time dt))
          (timeTicks time dt) nn junk).getD t []
          = (List.range nn).map (fun c =>
              if t * nn + c < (bernoulliRBFRate datum ng nn (timeTicks time dt)).length
              then (bernoulliRBFRate datum ng nn (timeTicks time dt)).getD (t * nn + c) 0
              else junk (t * nn + c)) := by
        unfold pyResize
        exact getD_map_range _ _ _ _ ht
      rw [hrowt]
      simp

/-- Witness for the amended C7 theorem at `neural_num = 3`, `num_group = 2`. -/
theorem resize_masks_shape_mismatch_witness :
    (0 < 2 ∧ 2 ≤ 3 ∧ ¬ ((2 : ℕ) ∣ 3) ∧ 0 < timeTicks 1 1)
      ∧ ((bernoulliRBFRate [1/2, 1/2] 2 3 (timeTicks 1 1)).length
            < timeTicks 1 1 * 3
        ∧ ((∀ x ∈ [(1 : ℚ)/2, 1/2], 0 ≤ x ∧ x ≤ 1) →
            (∀ k : ℕ, 0 ≤ (0 : ℚ) ∧ (0 : ℚ) ≤ 1) →
            ∃ M, bernoulli_RBF [1/2, 1/2] 3 2 1 1 (fun _ => 0) (fun _ => 1/2) = .ok M
              ∧ M.length = timeTicks 1 1 ∧ ∀ row ∈ M, row.length = 3)
        ∧ (IO_flat (1/2) 3 (timeTicks 1 1) 1 (fun _ => 1/2)).length
            = timeTicks 1 1 * 3) :=
  ⟨⟨by decide, by decide, by decide, by with_unfolding_all decide⟩,
    resize_masks_shape_mismatch [1/2, 1/2] 3 2 1 1 (fun _ => 0) (fun _ => 1/2)
      (1/2) 1 (by decide) (by decide) (by decide) (by with_unfolding_all decide)⟩

/-!  ### All-zero rate vectors (C6) -/

theorem getD_replicate_zero (n i : ℕ) :
    (List.replicate n (0 : ℚ)).getD i 0 = 0 := by
  induction n generalizing i with
  | zero => simp
  | succ m ih =>
    cases i with
    | zero => simp [List.replicate_succ]
    | succ j => simp [List.replicate_succ, ih j]

theorem foldl_max_replicate_zero (m : ℕ) :
    List.foldl max (0 : ℚ) (List.replicate m 0) = 0 := by
  induction m with
  | zero => simp
  | succ k ih => simp [List.replicate_succ, ih]

theorem tensorMax_replicate_zero (n : ℕ) :
    tensorMax (List.replicate n (0 : ℚ)) = 0 := by
  unfold tensorMax
  cases n with
  | zero => simp
  | succ m =>
    rw [List.replicate_succ]
    simp [foldl_max_replicate_zero]

theorem poissonInterval_zero (dt : ℚ) (raw : ℕ → ℕ → ℕ) (n s i : ℕ) :
    poissonInterval (List.replicate n 0) dt raw s i = 0 := by
  unfold poissonInterval poissonRate poissonSample
  rw [getD_replicate_zero]
  simp

theorem poissonTimes_zero (dt : ℚ) (raw : ℕ → ℕ → ℕ) (n t i : ℕ) :
    poissonTimes (List.replicate n 0) dt raw t i = 0 := by
  unfold poissonTimes
  have : (List.range (t + 1)).map
      (fun s => poissonInterval (List.replicate n 0) dt raw s i)
      = (List.range (t + 1)).map (fun _ => 0) :=
    List.map_congr_left (fun s _ => poissonInterval_zero dt raw n s i)
  rw [this, sum_map_const_nat]
  simp

theorem poissonSpikeAt_zero (dt : ℚ) (raw : ℕ → ℕ → ℕ) (n T r i : ℕ)
    (hr : r ≠ 0) :
    poissonSpikeAt (List.replicate n 0) dt raw T r i = 0 := by
  unfold poissonSpikeAt
  rw [if_neg]
  intro hany
  rw [List.any_eq_true] at hany
  obtain ⟨t, _, ht⟩ := hany
  unfold poissonClampedTimes at ht
  rw [poissonTimes_zero] at ht
  simp at ht
  exact hr ht.symm

/-- C6 (refuted by the code): `poisson_IO` raises on the all-zero rate
vector — its rate normalization divides by the zero maximum. -/
theorem poisson_IO_allzero_counterexample :
    poisson_IO_fn [(0 : ℚ)] 4 1 (fun _ _ => 0)
      = .error "ValueError: Poisson rate is not a finite non-negative number" := by
  with_unfolding_all decide

/-- C6 as amended: `poisson` resolves an all-zero input to the all-zero spike
train without error, while `poisson_IO` fails on it (its `datum / max(datum)`
rate is `0/0`). -/
theorem zero_rate_default_policy (n : ℕ) (time dt : ℚ) (raw : ℕ → ℕ → ℕ)
    (hn : 0 < n) :
    poisson (List.replicate n 0) time dt raw
        = .ok (List.replicate (timeTicks time dt) (List.replicate n 0))
      ∧ ∃ e, poisson_IO_fn (List.replicate n 0) time dt raw = .error e := by
  have hP : ∀ x ∈ List.replicate n (0 : ℚ), 0 ≤ x := by
    intro x hx
    rw [List.eq_of_mem_replicate hx]
  constructor
  · unfold poisson
    rw [if_neg (not_not_intro hP)]
    refine congrArg Except.ok ?_
    apply List.ext_getElem
    · simp
    · intro k h1 h2
      rw [List.getElem_drop, List.getElem_map, List.getElem_range,
        List.getElem_replicate]
      have hrow : (List.range (List.replicate n (0:ℚ)).length).map
          (fun i => poissonSpikeAt (List.replicate n 0) dt raw
            (timeTicks time dt) (1 + k) i)
          = (List.range (List.replicate n (0:ℚ)).length).map (fun _ => (0:ℚ)) :=
        List.map_congr_left (fun i _ =>
          poissonSpikeAt_zero dt raw n (timeTicks time dt) (1 + k) i (by omega))
      rw [hrow, map_range_const]
      simp
  · refine ⟨"ValueError: Poisson rate is not a finite non-negative number", ?_⟩
    obtain ⟨m, rfl⟩ : ∃ m, n = m + 1 := ⟨n - 1, by omega⟩
    have hany : ((List.replicate (m + 1) (0:ℚ)).map
        (fun x => floatDiv x (tensorMax (List.replicate (m + 1) 0)))).any
          (fun r => r.isNone) = true := by
      rw [tensorMax_replicate_zero, List.map_replicate]
      unfold floatDiv
      simp [List.replicate_succ]
    unfold poisson_IO_fn
    rw [if_neg (not_not_intro hP), if_pos hany]

/-- Witness for the amended C6 theorem on a single all-zero neuron. -/
theorem zero_rate_default_policy_witness :
    (0 < 1)
      ∧ (poisson (List.replicate 1 (0 : ℚ)) 3 1 (fun _ _ => 5)
          = .ok (List.replicate (timeTicks 3 1) (List.replicate 1 0))
        ∧ ∃ e, poisson_IO_fn (List.replicate 1 (0 : ℚ)) 3 1 (fun _ _ => 5)
            = .error e) :=
  ⟨by decide, zero_rate_default_policy 1 3 1 (fun _ _ => 5) (by decide)⟩

/-!  ### Binary-output and rejection lemmas (C5) -/

def binaryMat (M : Mat) : Prop := ∀ row ∈ M, ∀ x ∈ row, x = 0 ∨ x = 1

theorem torchBernoulliProb_binary (p r : ℚ) :
    torchBernoulliProb p r = 0 ∨ torchBernoulliProb p r = 1 := by
  unfold torchBernoulliProb
  split
  · exact Or.inr rfl
  · exact Or.inl rfl

theorem exceptMap_ok_inv {α β ε : Type} {f : α → β} {e : Except ε α} {y : β}
    (h : Except.map f e = .ok y) : ∃ x, e = .ok x ∧ f x = y := by
  cases e with
  | ok a =>
    refine ⟨a, rfl, ?_⟩
    simpa [Except.map] using h
  | error err => simp [Except.map] at h

theorem torchBernoulliMat_binary {ps : Mat} {rand : ℕ → ℚ} {M : Mat}
    (h : torchBernoulliMat ps rand = .ok M) : binaryMat M := by
  rw [torchBernoulliMat_ok_inv h]
  intro row hrow x hx
  obtain ⟨t, _, rfl⟩ := List.mem_map.mp hrow
  obtain ⟨i, _, rfl⟩ := List.mem_map.mp hx
  exact torchBernoulliProb_binary _ _

theorem torchBernoulliVec_binary {ps : List ℚ} {rand : ℕ → ℚ} {v : List ℚ}
    (h : torchBernoulliVec ps rand = .ok v) : ∀ x ∈ v, x = 0 ∨ x = 1 := by
  have hv : v = (List.range ps.length).map
      (fun k => torchBernoulliProb (ps.getD k 0) (rand k)) := by
    unfold torchBernoulliVec at h
    split at h
    · exact ((Except.ok.injEq _ _).mp h).symm
    · exact absurd h (by simp)
  rw [hv]
  intro x hx
  obtain ⟨k, _, rfl⟩ := List.mem_map.mp hx
  exact torchBernoulliProb_binary _ _

theorem foldl_append_entries (v : ℕ → List ℚ) (P : ℚ → Prop)
    (hv : ∀ t, ∀ x ∈ v t, P x) :
    ∀ (l : List ℕ) (init : List ℚ), (∀ x ∈ init, P x) →
      ∀ x ∈ l.foldl (fun acc t => v t ++ acc) init, P x := by
  intro l
  induction l with
  | nil => intro init hinit x hx; exact hinit x hx
  | cons a rest ih =>
    intro init hinit x hx
    rw [List.foldl_cons] at hx
    exact ih (v a ++ init)
      (fun y hy => (List.mem_append.mp hy).elim (hv a y) (hinit y)) x hx

theorem IO_flat_entries (Current : ℚ) (nn T : ℕ) (mp : ℚ) (rand : ℕ → ℚ) :
    ∀ x ∈ IO_flat Current nn T mp rand, x = 0 ∨ x = 1 := by
  unfold IO_flat
  refine foldl_append_entries _ (fun x => x = 0 ∨ x = 1) ?_ (List.range T) []
    (by simp)
  intro t x hx
  obtain ⟨i, _, rfl⟩ := List.mem_map.mp hx
  split
  · exact Or.inr rfl
  · exact Or.inl rfl

/-- C5: `bernoulli` and `IO_Current2spikes` reject a negative input through
their asserts; `bernoulli_RBF` (with a nonempty window, nonempty groups and
`num_group ≤ neural_num`) rejects a negative group rate inside
`torch.bernoulli`; and every spike train any of the three returns is strictly
binary. -/
theorem encoders_reject_negative_and_binary
    (nn ng : ℕ) (time dt max_prob : ℚ) (junk rand : ℕ → ℚ)
    (hT : 0 < timeTicks time dt) (hg : 0 < ng) (hgn : ng ≤ nn) :
    (∀ (datum : List ℚ) (topt : Option ℚ), (∃ x ∈ datum, x < 0) →
        ∃ e, bernoulli datum topt dt max_prob rand = .error e)
      ∧ (∀ datum : List ℚ, (∃ i, i < ng ∧ datum.getD i 0 < 0) →
        ∃ e, bernoulli_RBF datum nn ng time dt junk rand = .error e)
      ∧ (∀ Current : ℚ, Current < 0 →
        ∃ e, IO_Current2spikes Current nn time dt max_prob junk rand = .error e)
      ∧ (∀ (datum : List ℚ) (topt : Option ℚ) (M : Mat),
        bernoulli datum topt dt max_prob rand = .ok (TorchT.mat M) → binaryMat M)
      ∧ (∀ (datum : List ℚ) (topt : Option ℚ) (v : List ℚ),
        bernoulli datum topt dt max_prob rand = .ok (TorchT.vec v) →
          ∀ x ∈ v, x = 0 ∨ x = 1)
      ∧ (∀ (datum : List ℚ) (M : Mat),
        bernoulli_RBF datum nn ng time dt junk rand = .ok M → binaryMat M)
      ∧ (∀ (Current : ℚ) (M : Mat),
        IO_Current2spikes Current nn time dt max_prob junk rand = .ok M →
          binaryMat M) := by
  refine ⟨?_, ?_, ?_, ?_, ?_, ?_, ?_⟩
  · intro datum topt hneg
    by_cases h1 : 0 ≤ max_prob ∧ max_prob ≤ 1
    · refine ⟨"AssertionError: Inputs must be non-negative", ?_⟩
      have h2 : ¬ (∀ x ∈ datum, 0 ≤ x) := by
        obtain ⟨x, hx, hlt⟩ := hneg
        intro hall
        exact absurd (hall x hx) (not_le.mpr hlt)
      unfold bernoulli
      rw [if_neg (not_not_intro h1), if_pos h2]
    · exact ⟨"AssertionError: Maximum firing probability must be in range 0..1",
        by unfold bernoulli; rw [if_pos h1]⟩
  · intro datum hneg
    obtain ⟨i, hi, hdneg⟩ := hneg
    have hmem := bernoulliRBFRate_mem datum ng nn (timeTicks time dt) i hT hg hgn hi
    have hlen : (bernoulliRBFRate datum ng nn (timeTicks time dt)).length
        ≤ timeTicks time dt * nn := by
      rw [bernoulliRBFRate_length]
      apply Nat.mul_le_mul_left
      rw [Nat.mul_comm]
      exact Nat.div_mul_le_self nn ng
    obtain ⟨row, hrow, hxrow⟩ :=
      mem_pyResize_of_mem_flat _ _ _ junk hlen _ hmem
    have hfail := all_probOk_false_of_neg hrow hxrow hdneg
    refine ⟨"RuntimeError: bernoulli expects all elements to be in 0..1", ?_⟩
    unfold bernoulli_RBF torchBernoulliMat
    rw [if_neg hfail]
  · intro Current hneg
    by_cases h1 : 0 ≤ max_prob ∧ max_prob ≤ 1
    · refine ⟨"AssertionError: Inputs must be non-negative", ?_⟩
      unfold IO_Current2spikes
      rw [if_neg (not_not_intro h1), if_pos (not_le.mpr hneg)]
    · exact ⟨"AssertionError: Maximum firing probability must be in range 0..1",
        by unfold IO_Current2spikes; rw [if_pos h1]⟩
  · intro datum topt M h
    unfold bernoulli at h
    split at h
    · exact absurd h (by simp)
    · split at h
      · exact absurd h (by simp)
      · cases topt with
        | none =>
          obtain ⟨A, _, hfA⟩ := exceptMap_ok_inv h
          exact absurd hfA (by simp)
        | some t =>
          obtain ⟨A, hA, hfA⟩ := exceptMap_ok_inv h
          have : A = M := by
            have := (TorchT.mat.injEq A M).mp hfA
            exact this
          subst this
          exact torchBernoulliMat_binary hA
  · intro datum topt v h
    unfold bernoulli at h
    split at h
    · exact absurd h (by simp)
    · split at h
      · exact absurd h (by simp)
      · cases topt with
        | none =>
          obtain ⟨A, hA, hfA⟩ := exceptMap_ok_inv h
          have : A = v := by
            have := (TorchT.vec.injEq A v).mp hfA
            exact this
          subst this
          exact torchBernoulliVec_binary hA
        | some t =>
          obtain ⟨A, _, hfA⟩ := exceptMap_ok_inv h
          exact absurd hfA (by simp)
  · intro datum M h
    exact torchBernoulliMat_binary h
  · intro Current M h
    unfold IO_Current2spikes at h
    split at h
    · exact absurd h (by simp)
    · split at h
      · exact absurd h (by simp)
      · have hM := (Except.ok.injEq _ _).mp h
        rw [← hM]
        intro row hrow x hx
        obtain ⟨r, hr, rfl⟩ := List.mem_map.mp hrow
        rw [List.mem_range] at hr
        obtain ⟨c, hc, rfl⟩ := List.mem_map.mp hx
        rw [List.mem_range] at hc
        have hin : r * nn + c
            < (IO_flat Current nn (timeTicks time dt) max_prob rand).length := by
          rw [IO_flat_length]
          calc r * nn + c < (r + 1) * nn := by
                rw [Nat.add_mul, Nat.one_mul]; omega
            _ ≤ timeTicks time dt * nn := Nat.mul_le_mul_right nn (by omega)
        rw [if_pos hin, List.getD_eq_get _ 0 hin]
        exact IO_flat_entries Current nn (timeTicks time dt) max_prob rand _
          (List.get_mem _ _ hin)

/-- Witness for C5: with a one-tick window and two neurons in two groups, the
negative input `-1` is rejected by `bernoulli`. -/
theorem encoders_reject_negative_and_binary_witness :
    (0 < timeTicks 1 1 ∧ 0 < 2 ∧ 2 ≤ 2)
      ∧ (∃ e, bernoulli [(-1 : ℚ)] (some 1) 1 1 (fun _ => 0) = .error e) :=
  ⟨⟨by with_unfolding_all decide, by decide, by decide⟩,
    (encoders_reject_negative_and_binary 2 2 1 1 1 (fun _ => 0) (fun _ => 0)
      (by with_unfolding_all decide) (by decide) (by decide)).1
      [(-1 : ℚ)] (some 1)
      ⟨-1, by with_unfolding_all decide, by with_unfolding_all decide⟩⟩

/-!  ## Encoder/decoder round trip (C8)

The round trip encodes a constant rate `p = a/N` (a rational in `[0,1]`) with
`bernoulli` over a window of `T` ticks and decodes with `Decode_Output`
(population 1, window `T`, `dt = 1`, identity bounds `width 1, low 0`).  The
uniform draws consumed by `torch.bernoulli` are modelled exhaustively: a draw
for tick `t` is `u t / N` with `u t` ranging over `Fin N`, so summing over all
`u : Fin T → Fin N` weighs every spike pattern with its Bernoulli
probability.  We prove the decoder's expectation is exactly `p` and its mean
squared error is `p (1-p) / T ≤ 1 / (4 T)` — the rate-coding law of large
numbers: the tolerance shrinks as the recording window grows. -/

def spikeIndicator {N : ℕ} (a : ℕ) (k : Fin N) : ℚ := if (k : ℕ) < a then 1 else 0

def hitCount {N T : ℕ} (a : ℕ) (u : Fin T → Fin N) : ℚ :=
  ∑ t, spikeIndicator a (u t)

/-- The uniform draw stream induced by a tuple of grid points: tick `k < T`
draws `u k / N ∈ [0, 1)`. -/
def bernoulliStream (N T : ℕ) (u : Fin T → Fin N) : ℕ → ℚ :=
  fun k => if h : k < T then ((u ⟨k, h⟩ : ℕ) : ℚ) / N else 1

/-- Encode the constant rate `a/N` for `T` ticks with `bernoulli`, then decode
with `Decode_Output`. -/
def roundTrip (N T a : ℕ) (u : Fin T → Fin N) : ℚ :=
  match bernoulli [(a : ℚ) / N] (some (T : ℚ)) 1 1 (bernoulliStream N T u) with
  | .ok (TorchT.mat M) => Decode_Output M 1 (T : ℚ) 1 1 0
  | _ => 0

theorem timeTicks_natCast (T : ℕ) : timeTicks (T : ℚ) 1 = T := by
  unfold timeTicks pyInt
  rw [div_one, if_pos (by positivity)]
  simp

theorem getD_replicate_of_lt {α : Type} (x d : α) (n i : ℕ) (h : i < n) :
    (List.replicate n x).getD i d = x := by
  induction n generalizing i with
  | zero => omega
  | succ m ih =>
    cases i with
    | zero => simp [List.replicate_succ]
    | succ j => simpa [List.replicate_succ] using ih j (by omega)

/-- Evaluating the `bernoulli` encoder at a constant scalar rate `a/N`. -/
theorem bernoulli_const_eval (N T a : ℕ) (hN : 0 < N) (ha : a ≤ N)
    (rand : ℕ → ℚ) :
    bernoulli [(a : ℚ) / N] (some (T : ℚ)) 1 1 rand
      = .ok (TorchT.mat ((List.range T).map
          (fun t => [if rand t < (a : ℚ) / N then (1 : ℚ) else 0]))) := by
  have hp0 : 0 ≤ (a : ℚ) / N := by positivity
  have hp1 : (a : ℚ) / N ≤ 1 := by
    rw [div_le_one (by exact_mod_cast hN)]
    exact_mod_cast ha
  have hmax : tensorMax [(a : ℚ) / N] = (a : ℚ) / N := by
    simp [tensorMax]
  unfold bernoulli
  rw [if_neg (not_not_intro ⟨by norm_num, by norm_num⟩)]
  rw [if_neg (not_not_intro (fun x hx => by
    rw [List.mem_singleton] at hx
    rw [hx]; exact hp0))]
  show Except.map TorchT.mat (torchBernoulliMat
      (List.replicate (timeTicks (T : ℚ) 1)
        ((if 1 < tensorMax [(a : ℚ) / N]
          then [(a : ℚ) / N].map (fun x => x / tensorMax [(a : ℚ) / N])
          else [(a : ℚ) / N]).map (fun x => 1 * x))) rand) = _
  rw [if_neg (by rw [hmax]; exact not_lt.mpr hp1), timeTicks_natCast]
  have hall2 : (List.replicate T [1 * ((a : ℚ) / N)]).all
      (fun row => row.all probOk) = true := by
    rw [List.all_eq_true]
    intro row hrow
    rw [List.eq_of_mem_replicate hrow]
    simp only [List.all_cons, List.all_nil, Bool.and_true, probOk,
      Bool.and_eq_true, decide_eq_true_eq, one_mul]
    exact ⟨hp0, hp1⟩
  rw [show ([(a : ℚ) / N].map (fun x => 1 * x)) = [1 * ((a : ℚ) / N)] from rfl]
  unfold torchBernoulliMat
  rw [if_pos hall2]
  show Except.ok (TorchT.mat _) = _
  refine congrArg Except.ok (congrArg TorchT.mat ?_)
  rw [List.length_replicate]
  apply List.map_congr_left
  intro t ht
  rw [List.mem_range] at ht
  rw [getD_replicate_of_lt _ _ _ _ ht]
  show [torchBernoulliProb ([1 * ((a : ℚ) / N)].getD 0 0) (rand (t * 1 + 0))] = _
  unfold torchBernoulliProb
  simp

/-- Evaluating the decoder on a single-column spike train with identity
bounds. -/
theorem Decode_Output_single_column (g : ℕ → ℚ) (T : ℕ) :
    Decode_Output ((List.range T).map (fun t => [g t])) 1 (T : ℚ) 1 1 0
      = ((List.range T).map g).sum / T := by
  show 1 * ((((List.range 1).map (fun j =>
      (((List.range T).map (fun t => [g t])).map (fun row => row.getD j 0)).sum)).map
        (fun c => c / ((T : ℚ) / 1))).sum / ((1 : ℕ) : ℚ)) + 0
    = ((List.range T).map g).sum / T
  rw [show List.range 1 = [0] from rfl]
  simp only [List.map_cons, List.map_nil, List.sum_cons, List.sum_nil, List.map_map]
  rw [show ((List.range T).map ((fun row => row.getD 0 0) ∘ fun t => [g t]))
      = (List.range T).map g from List.map_congr_left (fun t _ => rfl)]
  rw [div_one]
  push_cast
  ring

theorem listSum_range (f : ℕ → ℚ) (n : ℕ) :
    ((List.range n).map f).sum = ∑ i in Finset.range n, f i := by
  induction n with
  | zero => simp
  | succ m ih =>
    rw [List.range_succ, List.map_append, List.sum_append,
      Finset.sum_range_succ, ih]
    simp

/-- The decoded value of the round trip is the empirical spike rate. -/
theorem roundTrip_eq (N T a : ℕ) (hN : 0 < N) (ha : a ≤ N)
    (u : Fin T → Fin N) :
    roundTrip N T a u = hitCount a u / T := by
  unfold roundTrip
  rw [bernoulli_const_eval N T a hN ha]
  show Decode_Output ((List.range T).map
      (fun t => [if bernoulliStream N T u t < (a : ℚ) / N then (1 : ℚ) else 0]))
      1 (T : ℚ) 1 1 0 = _
  rw [Decode_Output_single_column]
  have hcongr : (List.range T).map
      (fun t => if bernoulliStream N T u t < (a : ℚ) / N then (1 : ℚ) else 0)
      = (List.range T).map
        (fun t => if h : t < T then spikeIndicator a (u ⟨t, h⟩) else 0) := by
    apply List.map_congr_left
    intro t ht
    rw [List.mem_range] at ht
    rw [dif_pos ht]
    unfold bernoulliStream spikeIndicator
    rw [dif_pos ht]
    have hiff : ((u ⟨t, ht⟩ : ℕ) : ℚ) / N < (a : ℚ) / N
        ↔ ((u ⟨t, ht⟩ : ℕ) : ℕ) < a := by
      rw [div_lt_div_iff_of_pos_right (by exact_mod_cast hN)]
      exact_mod_cast Iff.rfl
    by_cases hlt : ((u ⟨t, ht⟩ : ℕ) : ℕ) < a
    · rw [if_pos (hiff.mpr hlt), if_pos hlt]
    · rw [if_neg (fun hc => hlt (hiff.mp hc)), if_neg hlt]
  rw [hcongr, listSum_range]
  have hfin : ∑ i in Finset.range T,
      (if h : i < T then spikeIndicator a (u ⟨i, h⟩) else 0)
      = ∑ t : Fin T, spikeIndicator a (u t) := by
    rw [← Fin.sum_univ_eq_sum_range
      (fun i => if h : i < T then spikeIndicator a (u ⟨i, h⟩) else 0)]
    apply Finset.sum_congr rfl
    intro t _
    rw [dif_pos t.isLt]
  rw [hfin]
  rfl

/-!  ### Mean and variance of the spike count over all draw tuples -/

theorem hitCount_cons {N T : ℕ} (a : ℕ) (x : Fin N) (v : Fin T → Fin N) :
    hitCount a (Fin.cons x v) = spikeIndicator a x + hitCount a v := by
  unfold hitCount
  rw [Fin.sum_univ_succ]
  simp

theorem sum_spikeIndicator (N a : ℕ) (ha : a ≤ N) :
    ∑ k : Fin N, spikeIndicator a k = (a : ℚ) := by
  unfold spikeIndicator
  rw [Fin.sum_univ_eq_sum_range (fun i => if i < a then (1 : ℚ) else 0)]
  rw [Finset.sum_boole]
  have hfilter : (Finset.range N).filter (fun i => i < a) = Finset.range a := by
    ext x
    simp only [Finset.mem_filter, Finset.mem_range]
    exact ⟨fun h => h.2, fun h => ⟨lt_of_lt_of_le h ha, h⟩⟩
  rw [hfilter, Finset.card_range]

theorem sum_spikeIndicator_dev (N a : ℕ) (hN : 0 < N) (ha : a ≤ N) :
    ∑ k : Fin N, (spikeIndicator a k - (a : ℚ) / N) = 0 := by
  have hN' : (N : ℚ) ≠ 0 := by positivity
  rw [Finset.sum_sub_distrib, sum_spikeIndicator N a ha, Finset.sum_const,
    Finset.card_univ, Fintype.card_fin, nsmul_eq_mul]
  field_simp

theorem sum_spikeIndicator_dev_sq (N a : ℕ) (hN : 0 < N) (ha : a ≤ N) :
    ∑ k : Fin N, (spikeIndicator a k - (a : ℚ) / N) ^ 2
      = N * ((a : ℚ) / N * (1 - (a : ℚ) / N)) := by
  have hN' : (N : ℚ) ≠ 0 := by positivity
  have hsq : ∀ k : Fin N, (spikeIndicator a k - (a : ℚ) / N) ^ 2
      = spikeIndicator a k * (1 - 2 * ((a : ℚ) / N)) + ((a : ℚ) / N) ^ 2 := by
    intro k
    unfold spikeIndicator
    split <;> ring
  rw [Finset.sum_congr rfl (fun k _ => hsq k), Finset.sum_add_distrib,
    ← Finset.sum_mul, sum_spikeIndicator N a ha, Finset.sum_const,
    Finset.card_univ, Fintype.card_fin, nsmul_eq_mul]
  field_simp
  ring

/-- The spike count is unbiased: summing the deviation over all draw tuples
gives zero. -/
theorem sum_hit_dev (N a : ℕ) (hN : 0 < N) (ha : a ≤ N) :
    ∀ T : ℕ, ∑ u : Fin T → Fin N, (hitCount a u - T * ((a : ℚ) / N)) = 0 := by
  intro T
  induction T with
  | zero => simp [hitCount]
  | succ T ih =>
    rw [← Equiv.sum_comp (Fin.consEquiv (fun _ : Fin (T + 1) => Fin N))
      (fun u => hitCount a u - (T + 1 : ℕ) * ((a : ℚ) / N))]
    rw [Fintype.sum_prod_type]
    have hsummand : ∀ (x : Fin N) (v : Fin T → Fin N),
        hitCount a (Fin.cons x v) - ((T + 1 : ℕ) : ℚ) * ((a : ℚ) / N)
          = (spikeIndicator a x - (a : ℚ) / N)
            + (hitCount a v - T * ((a : ℚ) / N)) := by
      intro x v
      rw [hitCount_cons]
      push_cast
      ring
    calc ∑ x : Fin N, ∑ v : Fin T → Fin N,
          (hitCount a ((Fin.consEquiv (fun _ : Fin (T + 1) => Fin N)) (x, v))
            - ((T + 1 : ℕ) : ℚ) * ((a : ℚ) / N))
        = ∑ x : Fin N, ∑ v : Fin T → Fin N,
          ((spikeIndicator a x - (a : ℚ) / N)
            + (hitCount a v - T * ((a : ℚ) / N))) := by
          apply Finset.sum_congr rfl
          intro x _
          apply Finset.sum_congr rfl
          intro v _
          exact hsummand x v
      _ = ∑ x : Fin N, ((Fintype.card (Fin T → Fin N) : ℚ)
            * (spikeIndicator a x - (a : ℚ) / N)
            + ∑ v : Fin T → Fin N, (hitCount a v - T * ((a : ℚ) / N))) := by
          apply Finset.sum_congr rfl
          intro x _
          rw [Finset.sum_add_distrib, Finset.sum_const, Finset.card_univ,
            nsmul_eq_mul]
      _ = 0 := by
          rw [ih]
          simp only [add_zero]
          rw [← Finset.mul_sum, sum_spikeIndicator_dev N a hN ha, mul_zero]

/-- The variance of the spike count over all draw tuples is binomial:
`N^T * T * p (1 - p)`. -/
theorem sum_hit_dev_sq (N a : ℕ) (hN : 0 < N) (ha : a ≤ N) :
    ∀ T : ℕ, ∑ u : Fin T → Fin N, (hitCount a u - T * ((a : ℚ) / N)) ^ 2
      = (N : ℚ) ^ T * T * ((a : ℚ) / N * (1 - (a : ℚ) / N)) := by
  intro T
  induction T with
  | zero => simp [hitCount]
  | succ T ih =>
    rw [← Equiv.sum_comp (Fin.consEquiv (fun _ : Fin (T + 1) => Fin N))
      (fun u => (hitCount a u - (T + 1 : ℕ) * ((a : ℚ) / N)) ^ 2)]
    rw [Fintype.sum_prod_type]
    have hcard : (Fintype.card (Fin T → Fin N) : ℚ) = (N : ℚ) ^ T := by
      rw [Fintype.card_fun, Fintype.card_fin, Fintype.card_fin]
      push_cast
      ring
    have hsummand : ∀ (x : Fin N) (v : Fin T → Fin N),
        (hitCount a (Fin.cons x v) - ((T + 1 : ℕ) : ℚ) * ((a : ℚ) / N)) ^ 2
          = (spikeIndicator a x - (a : ℚ) / N) ^ 2
            + 2 * (spikeIndicator a x - (a : ℚ) / N)
              * (hitCount a v - T * ((a : ℚ) / N))
            + (hitCount a v - T * ((a : ℚ) / N)) ^ 2 := by
      intro x v
      rw [hitCount_cons]
      push_cast
      ring
    calc ∑ x : Fin N, ∑ v : Fin T → Fin N,
          (hitCount a ((Fin.consEquiv (fun _ : Fin (T + 1) => Fin N)) (x, v))
            - ((T + 1 : ℕ) : ℚ) * ((a : ℚ) / N)) ^ 2
        = ∑ x : Fin N, ∑ v : Fin T → Fin N,
            ((spikeIndicator a x - (a : ℚ) / N) ^ 2
              + 2 * (spikeIndicator a x - (a : ℚ) / N)
                * (hitCount a v - T * ((a : ℚ) / N))
              + (hitCount a v - T * ((a : ℚ) / N)) ^ 2) := by
          apply Finset.sum_congr rfl
          intro x _
          apply Finset.sum_congr rfl
          intro v _
          exact hsummand x v
      _ = ∑ x : Fin N, ((N : ℚ) ^ T * (spikeIndicator a x - (a : ℚ) / N) ^ 2
            + 2 * (spikeIndicator a x - (a : ℚ) / N)
              * (∑ v : Fin T → Fin N, (hitCount a v - T * ((a : ℚ) / N)))
            + ∑ v : Fin T → Fin N, (hitCount a v - T * ((a : ℚ) / N)) ^ 2) := by
          apply Finset.sum_congr rfl
          intro x _
          rw [Finset.sum_add_distrib, Finset.sum_add_distrib, Finset.sum_const,
            Finset.card_univ, nsmul_eq_mul, hcard, ← Finset.mul_sum]
      _ = (N : ℚ) ^ (T + 1) * (T + 1) * ((a : ℚ) / N * (1 - (a : ℚ) / N)) := by
          rw [sum_hit_dev N a hN ha T, ih]
          simp only [mul_zero, add_zero]
          rw [Finset.sum_add_distrib, ← Finset.mul_sum,
            sum_spikeIndicator_dev_sq N a hN ha, Finset.sum_const,
            Finset.card_univ, Fintype.card_fin, nsmul_eq_mul]
          push_cast
          ring
      _ = (N : ℚ) ^ (T + 1) * ((T + 1 : ℕ) : ℚ)
            * ((a : ℚ) / N * (1 - (a : ℚ) / N)) := by
          push_cast
          ring

/-- C8: encoding a constant rate `a/N` with `bernoulli` and decoding with
`Decode_Output` recovers the rate: over all draw tuples the expected decoded
value is exactly `a/N`, and the mean squared error is
`(a/N)(1 - a/N)/T ≤ 1/(4 T)`, which shrinks as the recording window `T`
grows. -/
theorem bernoulli_decode_roundtrip_lln (N T a : ℕ)
    (hN : 0 < N) (ha : a ≤ N) (hT : 0 < T) :
    (∑ u : Fin T → Fin N, roundTrip N T a u) / (N : ℚ) ^ T = (a : ℚ) / N
      ∧ (∑ u : Fin T → Fin N, (roundTrip N T a u - (a : ℚ) / N) ^ 2)
          / (N : ℚ) ^ T
        = (a : ℚ) / N * (1 - (a : ℚ) / N) / T
      ∧ (a : ℚ) / N * (1 - (a : ℚ) / N) / T ≤ 1 / (4 * T) := by
  have hN' : (N : ℚ) ≠ 0 := by positivity
  have hNT : (N : ℚ) ^ T ≠ 0 := pow_ne_zero T hN'
  have hT' : (0 : ℚ) < T := by exact_mod_cast hT
  have hTne : (T : ℚ) ≠ 0 := ne_of_gt hT'
  have hdev : ∀ u : Fin T → Fin N,
      roundTrip N T a u - (a : ℚ) / N
        = (hitCount a u - T * ((a : ℚ) / N)) / T := by
    intro u
    rw [roundTrip_eq N T a hN ha u, sub_div, mul_div_cancel_left₀ _ hTne]
  have hsum : ∑ u : Fin T → Fin N, hitCount a u
      = (N : ℚ) ^ T * (T * ((a : ℚ) / N)) := by
    have h0 := sum_hit_dev N a hN ha T
    rw [Finset.sum_sub_distrib, Finset.sum_const, Finset.card_univ] at h0
    have hcard : (Fintype.card (Fin T → Fin N) : ℚ) = (N : ℚ) ^ T := by
      rw [Fintype.card_fun, Fintype.card_fin, Fintype.card_fin]
      push_cast
      ring
    rw [nsmul_eq_mul, hcard] at h0
    linarith
  refine ⟨?_, ?_, ?_⟩
  · have : ∑ u : Fin T → Fin N, roundTrip N T a u
        = (∑ u : Fin T → Fin N, hitCount a u) / T := by
      rw [Finset.sum_congr rfl (fun u _ => roundTrip_eq N T a hN ha u),
        Finset.sum_div]
    rw [this, hsum]
    field_simp
    ring
  · have hsq : ∑ u : Fin T → Fin N, (roundTrip N T a u - (a : ℚ) / N) ^ 2
        = (∑ u : Fin T → Fin N, (hitCount a u - T * ((a : ℚ) / N)) ^ 2)
          / (T : ℚ) ^ 2 := by
      rw [Finset.sum_congr rfl (fun u _ => by rw [hdev u, div_pow]),
        Finset.sum_div]
    rw [hsq, sum_hit_dev_sq N a hN ha T]
    field_simp
    ring
  · have hb : (a : ℚ) / N * (1 - (a : ℚ) / N) ≤ 1 / 4 := by
      nlinarith [sq_nonneg ((a : ℚ) / N - 1 / 2)]
    calc (a : ℚ) / N * (1 - (a : ℚ) / N) / T ≤ (1 / 4) / T := by
          apply div_le_div_of_nonneg_right hb (le_of_lt hT')
      _ = 1 / (4 * T) := by
          rw [div_div]

/-- Witness for C8 at `p = 1/2`, one tick, two grid points. -/
theorem bernoulli_decode_roundtrip_lln_witness :
    (0 < 2 ∧ 1 ≤ 2 ∧ 0 < 1)
      ∧ ((∑ u : Fin 1 → Fin 2, roundTrip 2 1 1 u) / ((2 : ℕ) : ℚ) ^ 1
            = ((1 : ℕ) : ℚ) / ((2 : ℕ) : ℚ)
        ∧ (∑ u : Fin 1 → Fin 2,
              (roundTrip 2 1 1 u - ((1 : ℕ) : ℚ) / ((2 : ℕ) : ℚ)) ^ 2)
              / ((2 : ℕ) : ℚ) ^ 1
            = ((1 : ℕ) : ℚ) / ((2 : ℕ) : ℚ)
              * (1 - ((1 : ℕ) : ℚ) / ((2 : ℕ) : ℚ)) / ((1 : ℕ) : ℚ)
        ∧ ((1 : ℕ) : ℚ) / ((2 : ℕ) : ℚ)
              * (1 - ((1 : ℕ) : ℚ) / ((2 : ℕ) : ℚ)) / ((1 : ℕ) : ℚ)
            ≤ 1 / (4 * ((1 : ℕ) : ℚ))) :=
  ⟨⟨by decide, by decide, by decide⟩,
    bernoulli_decode_roundtrip_lln 2 1 1 (by decide) (by decide) (by decide)⟩

end BindsNet
